import Mathlib

/-!
A shallow embedding of thrust's generic binary-search dispatch layer
(`thrust/system/detail/generic/binary_search.inl`).

Sequences are `List α`; an iterator into the searched range is a `Nat`
offset, with `begin = 0` and `end = s.length`.  The batch output iterator
is a buffer `List β` together with a `Nat` offset into it; a batch call
returns the updated buffer paired with the advanced output offset,
mirroring the C++ convention of returning the output iterator.  All inputs
other than the output buffer are passed by value and returned unchanged by
construction, matching the read-only contract on the sequence and the
queries.
-/

namespace Thrust

variable {α : Type*} {β : Type*}

/-- `thrust::less<T>`: the natural strict less-than relation on the element
type, used as the default comparator. -/
def less [LinearOrder α] (a b : α) : Bool := decide (a < b)

/-- The sequence is sorted ascending with respect to `comp`: no element is
strictly preceded (under `comp`) by a later element. -/
def SortedWith (comp : α → α → Bool) (s : List α) : Prop :=
  s.Pairwise fun a b => comp b a = false

/-- `comp` is asymmetric, as every strict weak ordering is:
`comp a b` and `comp b a` are never both true. -/
def Asymm (comp : α → α → Bool) : Prop :=
  ∀ a b, comp a b = true → comp b a = false

namespace scalar

/-- Modelled from the spec: the single-position search primitive
`thrust::system::detail::generic::scalar::lower_bound` lives outside this
source file.  Per the spec it returns the smallest position `i` such that
`comp (s i) v` is false (the first element not ordered before the query),
and the sequence length when there is none. -/
def lower_bound (s : List α) (v : α) (comp : α → α → Bool) : Nat :=
  s.findIdx fun x => !comp x v

/-- Modelled from the spec: the single-position search primitive
`thrust::system::detail::generic::scalar::upper_bound` lives outside this
source file.  Per the spec it returns the smallest position `i` such that
`comp v (s i)` is true (the first element ordered after the query), and the
sequence length when there is none. -/
def upper_bound (s : List α) (v : α) (comp : α → α → Bool) : Nat :=
  s.findIdx fun x => comp v x

end scalar

namespace generic

namespace detail

/-- `lbf`: the lower-bound operation variant; returns
`scalar::lower_bound(begin, end, value, comp) - begin`, an offset. -/
def lbf (s : List α) (v : α) (comp : α → α → Bool) : Nat :=
  scalar.lower_bound s v comp

/-- `ubf`: the upper-bound operation variant; returns
`scalar::upper_bound(begin, end, value, comp) - begin`, an offset. -/
def ubf (s : List α) (v : α) (comp : α → α → Bool) : Nat :=
  scalar.upper_bound s v comp

/-- `bsf`: the membership operation variant:
`iter = scalar::lower_bound(begin, end, value, comp)` followed by
`iter != end && !comp(value, *iter)`.  Since the offset of `iter` never
exceeds the length, `iter != end` is the bounds check `i < s.length`. -/
def bsf (s : List α) (v : α) (comp : α → α → Bool) : Bool :=
  let i := scalar.lower_bound s v comp
  if h : i < s.length then !comp v (s.get ⟨i, h⟩) else false

/-- `binary_search_functor::operator()` computes, for the query component of
one zipped tuple, the value `func(begin, end, get<0>(t), comp)` that it
stores into the output component. -/
def binary_search_functor (s : List α) (comp : α → α → Bool)
    (func : List α → α → (α → α → Bool) → β) (q : α) : β :=
  func s q comp

/-- The `thrust::for_each` pass of the vector implementation: it walks the
zip of the query range with the output range starting at output offset `o`,
and each functor invocation writes `func(begin, end, query, comp)` into the
corresponding output slot.  The parallel-apply primitive is external; per
its spec contract each slot is written exactly once with no cross-query
interaction, so the pass is modelled as this slot-by-slot loop. -/
def for_each_search (s : List α) (comp : α → α → Bool)
    (func : List α → α → (α → α → Bool) → β) :
    List α → Nat → List β → List β
  | [], _, out => out
  | q :: qs, o, out =>
      for_each_search s comp func qs (o + 1)
        (out.set o (binary_search_functor s comp func q))

/-- `detail::binary_search`, the vector implementation: one `for_each` over
the zipped (query, output) ranges, then return
`output + distance(values_begin, values_end)`. -/
def binary_search (s : List α) (values : List α) (out : List β) (o : Nat)
    (comp : α → α → Bool) (func : List α → α → (α → α → Bool) → β) :
    List β × Nat :=
  (for_each_search s comp func values o out, o + values.length)

/-- `detail::binary_search`, the scalar implementation: allocate length-1
temporary buffers `d_value` and `d_output` (the fresh uninitialised output
buffer is modelled by the arbitrary content `init`), copy the value in, run
the vector implementation, and read back `d_output[0]`. -/
def binary_search_scalar (s : List α) (v : α) (comp : α → α → Bool)
    (func : List α → α → (α → α → Bool) → β) (init : β) : β :=
  let d_value : List α := [v]
  let d_output : List β := [init]
  ((binary_search s d_value d_output 0 comp func).1).getD 0 init

end detail

/-- Scalar `lower_bound(tag, begin, end, value, comp)`:
`begin + detail::binary_search<difference_type>(begin, end, value, comp,
lbf())`; here `begin = 0`, so the result is the offset itself. -/
def lower_bound (s : List α) (v : α) (comp : α → α → Bool) : Nat :=
  detail.binary_search_scalar s v comp detail.lbf 0

/-- Scalar `upper_bound(tag, begin, end, value, comp)`. -/
def upper_bound (s : List α) (v : α) (comp : α → α → Bool) : Nat :=
  detail.binary_search_scalar s v comp detail.ubf 0

/-- Scalar `binary_search(tag, begin, end, value, comp)`:
`detail::binary_search<bool>(begin, end, value, comp, bsf())`. -/
def binary_search (s : List α) (v : α) (comp : α → α → Bool) : Bool :=
  detail.binary_search_scalar s v comp detail.bsf false

/-- Scalar `lower_bound(tag, begin, end, value)` without a comparator:
delegates to `thrust::lower_bound(begin, end, value, thrust::less<T>())`. -/
def lower_bound_default [LinearOrder α] (s : List α) (v : α) : Nat :=
  lower_bound s v less

/-- Scalar `upper_bound(tag, begin, end, value)` without a comparator. -/
def upper_bound_default [LinearOrder α] (s : List α) (v : α) : Nat :=
  upper_bound s v less

/-- Scalar `binary_search(tag, begin, end, value)` without a comparator. -/
def binary_search_default [LinearOrder α] (s : List α) (v : α) : Bool :=
  binary_search s v less

/-- Vector `lower_bound(tag, begin, end, values_begin, values_end, output,
comp)`: delegates to the vector `detail::binary_search` with `lbf`. -/
def lower_bound_vec (s values : List α) (out : List Nat) (o : Nat)
    (comp : α → α → Bool) : List Nat × Nat :=
  detail.binary_search s values out o comp detail.lbf

/-- Vector `upper_bound(tag, begin, end, values_begin, values_end, output,
comp)`: delegates to the vector `detail::binary_search` with `ubf`. -/
def upper_bound_vec (s values : List α) (out : List Nat) (o : Nat)
    (comp : α → α → Bool) : List Nat × Nat :=
  detail.binary_search s values out o comp detail.ubf

/-- Vector `binary_search(tag, begin, end, values_begin, values_end, output,
comp)`: delegates to the vector `detail::binary_search` with `bsf`. -/
def binary_search_batch (s values : List α) (out : List Bool) (o : Nat)
    (comp : α → α → Bool) : List Bool × Nat :=
  detail.binary_search s values out o comp detail.bsf

/-- Vector `lower_bound` without a comparator: delegates to the comparator
form with `thrust::less<ValueType>()`. -/
def lower_bound_vec_default [LinearOrder α] (s values : List α)
    (out : List Nat) (o : Nat) : List Nat × Nat :=
  lower_bound_vec s values out o less

/-- Vector `upper_bound` without a comparator. -/
def upper_bound_vec_default [LinearOrder α] (s values : List α)
    (out : List Nat) (o : Nat) : List Nat × Nat :=
  upper_bound_vec s values out o less

/-- Vector `binary_search` without a comparator. -/
def binary_search_batch_default [LinearOrder α] (s values : List α)
    (out : List Bool) (o : Nat) : List Bool × Nat :=
  binary_search_batch s values out o less

/-- `equal_range(tag, first, last, value, comp)`: one full `lower_bound`
search, one full independent `upper_bound` search, paired. -/
def equal_range (s : List α) (v : α) (comp : α → α → Bool) : Nat × Nat :=
  let lb := lower_bound s v comp
  let ub := upper_bound s v comp
  (lb, ub)

/-- `equal_range(tag, first, last, value)` without a comparator: delegates
to the comparator form with `thrust::less<LessThanComparable>()`. -/
def equal_range_default [LinearOrder α] (s : List α) (v : α) : Nat × Nat :=
  equal_range s v less

end generic

end Thrust

namespace Thrust

namespace generic

variable {α : Type*} {β : Type*}

/-- The `for_each` pass preserves the length of the output buffer. -/
theorem for_each_search_length (s : List α) (comp : α → α → Bool)
    (func : List α → α → (α → α → Bool) → β) (qs : List α) (o : Nat) (out : List β) :
    (detail.for_each_search s comp func qs o out).length = out.length := by
  induction qs generalizing o out with
  | nil => simp [detail.for_each_search]
  | cons q qs ih => simp [detail.for_each_search, ih]

/-- The `for_each` pass leaves every output slot outside `[o, o + N)`
untouched. -/
theorem for_each_search_frame (s : List α) (comp : α → α → Bool)
    (func : List α → α → (α → α → Bool) → β) :
    ∀ (qs : List α) (o : Nat) (out : List β) (k : Nat),
      k < o ∨ o + qs.length ≤ k →
      (detail.for_each_search s comp func qs o out)[k]? = out[k]? := by
  intro qs
  induction qs with
  | nil =>
      intro o out k _
      simp [detail.for_each_search]
  | cons q qs ih =>
      intro o out k hk
      have hne : o ≠ k := by
        rcases hk with h | h
        · omega
        · simp only [List.length_cons] at h; omega
      have hk' : k < o + 1 ∨ (o + 1) + qs.length ≤ k := by
        rcases hk with h | h
        · exact Or.inl (by omega)
        · simp only [List.length_cons] at h; exact Or.inr (by omega)
      calc (detail.for_each_search s comp func (q :: qs) o out)[k]?
      _ = (out.set o (detail.binary_search_functor s comp func q))[k]? := by
            simp only [detail.for_each_search]; exact ih (o + 1) _ k hk'
      _ = out[k]? := List.getElem?_set_ne hne

/-- The `for_each` pass writes `func(begin, end, query_j, comp)` into the
output slot at offset `o + j`, for every in-range query index `j`. -/
theorem for_each_search_getElem (s : List α) (comp : α → α → Bool)
    (func : List α → α → (α → α → Bool) → β) :
    ∀ (qs : List α) (o : Nat) (out : List β) (j : Nat) (q : α),
      qs[j]? = some q → o + j < out.length →
      (detail.for_each_search s comp func qs o out)[o + j]? = some (func s q comp) := by
  intro qs
  induction qs with
  | nil => intro o out j q hq _; simp at hq
  | cons q0 qs ih =>
      intro o out j q hq hlt
      cases j with
      | zero =>
          simp only [List.getElem?_cons_zero, Option.some.injEq] at hq
          subst hq
          have hout : o < out.length := by omega
          calc (detail.for_each_search s comp func (q0 :: qs) o out)[o + 0]?
          _ = (out.set o (detail.binary_search_functor s comp func q0))[o]? := by
                simp only [detail.for_each_search, Nat.add_zero]
                exact for_each_search_frame s comp func qs (o + 1) _ o (Or.inl (by omega))
          _ = some (func s q0 comp) := by
                simp [detail.binary_search_functor, List.getElem?_set_self hout]
      | succ j' =>
          have hq' : qs[j']? = some q := by simpa using hq
          have harith : o + (j' + 1) = (o + 1) + j' := by omega
          rw [harith]
          simp only [detail.for_each_search]
          exact ih (o + 1) _ j' q hq' (by simp only [List.length_set]; omega)

/-- C1: Batch dispatcher contract: for every sorted range, every batch of
queries, every comparator and every operation variant `func` (instantiated
by `lbf`, `ubf` and `bsf`), provided the output buffer has capacity for the
batch, slot `o + i` of the output holds exactly
`func(begin, end, queries[i], comp)`, for each `i < N`, independently of
all other indices. -/
theorem batch_dispatcher_contract (s : List α) (qs : List α) (out : List β) (o : Nat)
    (comp : α → α → Bool) (func : List α → α → (α → α → Bool) → β)
    (hcap : o + qs.length ≤ out.length) (i : Nat) (hi : i < qs.length) :
    ((detail.binary_search s qs out o comp func).1)[o + i]? =
      some (func s (qs.get ⟨i, hi⟩) comp) := by
  have hq : qs[i]? = some (qs.get ⟨i, hi⟩) := by
    simp [List.getElem?_eq_getElem hi]
  exact for_each_search_getElem s comp func qs o out i _ hq (by omega)

/-- Witness for C1: a concrete batch instance. -/
theorem batch_dispatcher_contract_witness :
    1 + 3 ≤ 4 ∧ 1 < 3 ∧
    ((detail.binary_search [1, 3, 3, 3, 5, 7] [0, 3, 8] ([9, 9, 9, 9] : List Nat) 1
        (fun a b => decide (a < b)) detail.lbf).1)[1 + 1]? = some 1 := by
  refine ⟨by decide, by decide, ?_⟩
  have h := batch_dispatcher_contract [1, 3, 3, 3, 5, 7] [0, 3, 8] ([9, 9, 9, 9] : List Nat) 1
    (fun a b => decide (a < b)) detail.lbf (by decide) 1 (by decide)
  rw [h]
  rfl

/-- C2: Scalar and batch forms agree: for every range, comparator and single
query `v`, the scalar entry point equals slot 0 of the batch entry point run
on the one-element batch `[v]`, whatever the initial content of the
one-slot output buffer, for `lower_bound`, `upper_bound` and
`binary_search` alike. -/
theorem scalar_batch_agree (s : List α) (v : α) (comp : α → α → Bool)
    (i0 i1 : Nat) (b0 : Bool) :
    ((lower_bound_vec s [v] [i0] 0 comp).1)[0]? = some (lower_bound s v comp) ∧
    ((upper_bound_vec s [v] [i1] 0 comp).1)[0]? = some (upper_bound s v comp) ∧
    ((binary_search_batch s [v] [b0] 0 comp).1)[0]? = some (binary_search s v comp) :=
  ⟨rfl, rfl, rfl⟩

/-- C5: `equal_range` returns exactly the pair of the independent
`lower_bound` and `upper_bound` searches. -/
theorem equal_range_eq_pair (s : List α) (v : α) (comp : α → α → Bool) :
    equal_range s v comp = (lower_bound s v comp, upper_bound s v comp) := rfl

/-- C6: Empty-sequence edge case: with `begin = end`, `lower_bound` and
`upper_bound` return offset 0 (the begin position) and `binary_search`
returns false, for every query and comparator. -/
theorem empty_sequence_edge_case (v : α) (comp : α → α → Bool) :
    lower_bound ([] : List α) v comp = 0 ∧
    upper_bound ([] : List α) v comp = 0 ∧
    binary_search ([] : List α) v comp = false :=
  ⟨rfl, rfl, rfl⟩

/-- C8: Default-comparator equivalence: each public entry point without a
comparator returns exactly what the same entry point returns with the
natural strict less-than passed explicitly, in scalar and batch form. -/
theorem default_comparator_is_less [LinearOrder α] (s : List α) (v : α)
    (qs : List α) (outN outN' : List Nat) (outB : List Bool) (o : Nat) :
    lower_bound_default s v = lower_bound s v less ∧
    upper_bound_default s v = upper_bound s v less ∧
    binary_search_default s v = binary_search s v less ∧
    equal_range_default s v = equal_range s v less ∧
    lower_bound_vec_default s qs outN o = lower_bound_vec s qs outN o less ∧
    upper_bound_vec_default s qs outN' o = upper_bound_vec s qs outN' o less ∧
    binary_search_batch_default s qs outB o = binary_search_batch s qs outB o less :=
  ⟨rfl, rfl, rfl, rfl, rfl, rfl, rfl⟩

/-- C9: Frame property: a batch call writes exactly the N slots of the
output at `[o, o + N)` and nothing else — the buffer keeps its length,
every slot outside that window keeps its value, and a zero-length batch
returns the buffer entirely untouched.  The sequence and the queries are
unchanged by construction: the embedding threads only the output buffer
through the call. -/
theorem batch_frame_property (s qs : List α) (out : List β) (o : Nat)
    (comp : α → α → Bool) (func : List α → α → (α → α → Bool) → β)
    (j : Nat) (hj : j < o ∨ o + qs.length ≤ j) :
    ((detail.binary_search s qs out o comp func).1).length = out.length ∧
    ((detail.binary_search s qs out o comp func).1)[j]? = out[j]? ∧
    (detail.binary_search s ([] : List α) out o comp func).1 = out :=
  ⟨for_each_search_length s comp func qs o out,
   for_each_search_frame s comp func qs o out j hj,
   rfl⟩

/-- Witness for C9: a concrete frame instance. -/
theorem batch_frame_property_witness :
    (4 < 1 ∨ 1 + 3 ≤ 4) ∧
    (((detail.binary_search [1, 3, 3, 3, 5, 7] [0, 3, 8] ([9, 9, 9, 9, 9] : List Nat) 1
        (fun a b => decide (a < b)) detail.lbf).1).length = 5 ∧
     ((detail.binary_search [1, 3, 3, 3, 5, 7] [0, 3, 8] ([9, 9, 9, 9, 9] : List Nat) 1
        (fun a b => decide (a < b)) detail.lbf).1)[4]? = ([9, 9, 9, 9, 9] : List Nat)[4]? ∧
     (detail.binary_search [1, 3, 3, 3, 5, 7] ([] : List Nat) ([9, 9, 9, 9, 9] : List Nat) 1
        (fun a b => decide (a < b)) detail.lbf).1 = [9, 9, 9, 9, 9]) :=
  ⟨Or.inr (by decide),
   batch_frame_property [1, 3, 3, 3, 5, 7] [0, 3, 8] ([9, 9, 9, 9, 9] : List Nat) 1
     (fun a b => decide (a < b)) detail.lbf 4 (Or.inr (by decide))⟩

/-- C10: each batch-form entry point returns the output iterator advanced
by the number of queries, and returns it unchanged on an empty batch. -/
theorem batch_returns_advanced_iterator (s qs : List α) (outN outN' : List Nat)
    (outB : List Bool) (o : Nat) (comp : α → α → Bool) :
    (lower_bound_vec s qs outN o comp).2 = o + qs.length ∧
    (upper_bound_vec s qs outN' o comp).2 = o + qs.length ∧
    (binary_search_batch s qs outB o comp).2 = o + qs.length ∧
    (lower_bound_vec s [] outN o comp).2 = o ∧
    (upper_bound_vec s [] outN' o comp).2 = o ∧
    (binary_search_batch s [] outB o comp).2 = o := by
  refine ⟨rfl, rfl, rfl, ?_, ?_, ?_⟩ <;>
    simp [lower_bound_vec, upper_bound_vec, binary_search_batch, detail.binary_search]

end generic

end Thrust

namespace Thrust

namespace generic

variable {α : Type*} {β : Type*}

/-- The scalar bridge computes exactly the lower-bound functor. -/
theorem lower_bound_eq_lbf (s : List α) (v : α) (comp : α → α → Bool) :
    lower_bound s v comp = detail.lbf s v comp := rfl

/-- The scalar bridge computes exactly the upper-bound functor. -/
theorem upper_bound_eq_ubf (s : List α) (v : α) (comp : α → α → Bool) :
    upper_bound s v comp = detail.ubf s v comp := rfl

/-- The scalar bridge computes exactly the membership functor. -/
theorem binary_search_eq_bsf (s : List α) (v : α) (comp : α → α → Bool) :
    binary_search s v comp = detail.bsf s v comp := rfl

/-- `less` is asymmetric. -/
theorem less_asymm [LinearOrder α] : Asymm (less (α := α)) := by
  intro a b hab
  simp only [less, decide_eq_true_eq] at hab
  simp only [less, decide_eq_false_iff_not]
  exact lt_asymm hab

/-- The membership functor returns true exactly when the lower-bound and
upper-bound functors disagree, for any asymmetric comparator. -/
theorem bsf_eq_decide_ne (s : List α) (v : α) (comp : α → α → Bool)
    (hasym : Asymm comp) :
    detail.bsf s v comp = decide (detail.lbf s v comp ≠ detail.ubf s v comp) := by
  simp only [detail.bsf, detail.lbf, detail.ubf, scalar.lower_bound, scalar.upper_bound]
  by_cases h : (s.findIdx fun x => !comp x v) < s.length
  · rw [dif_pos h]
    cases hv : comp v (s.get ⟨s.findIdx fun x => !comp x v, h⟩) with
    | true =>
        have hub_le : (s.findIdx fun x => comp v x) ≤ s.findIdx fun x => !comp x v := by
          by_contra hc
          push_neg at hc
          have hq := List.not_of_lt_findIdx hc
          rw [List.get_eq_getElem] at hv
          simp only [hv] at hq
          exact absurd hq (by simp)
        have hle_ub : (s.findIdx fun x => !comp x v) ≤ s.findIdx fun x => comp v x := by
          apply List.le_findIdx_of_not h
          intro j hj
          have hpj := List.not_of_lt_findIdx hj
          simp only [Bool.not_eq_false'] at hpj
          exact hasym _ _ hpj
        have heq : (s.findIdx fun x => !comp x v) = s.findIdx fun x => comp v x :=
          Nat.le_antisymm hle_ub hub_le
        simp [hv, heq]
    | false =>
        have hne : (s.findIdx fun x => !comp x v) ≠ s.findIdx fun x => comp v x := by
          intro he
          have hlt : (s.findIdx fun x => comp v x) < s.length := he ▸ h
          have hq : comp v (s.get ⟨s.findIdx fun x => comp v x, hlt⟩) = true := by
            simpa [List.get_eq_getElem] using List.findIdx_getElem (w := hlt)
          have hee : s.get ⟨s.findIdx fun x => !comp x v, h⟩
              = s.get ⟨s.findIdx fun x => comp v x, hlt⟩ := by
            congr 1
            exact Fin.ext he
          rw [hee] at hv
          simp only [List.get_eq_getElem] at hv
          simp [hv] at hq
        simp [hv, hne]
  · rw [dif_neg h]
    have hlen : (s.findIdx fun x => !comp x v) = s.length :=
      Nat.le_antisymm (List.findIdx_le_length _) (Nat.le_of_not_lt h)
    have hall : ∀ x ∈ s, (!comp x v) = false := List.findIdx_eq_length.mp hlen
    have hall' : ∀ x ∈ s, comp v x = false := by
      intro x hx
      have hx1 := hall x hx
      simp only [Bool.not_eq_false'] at hx1
      exact hasym _ _ hx1
    have hub : (s.findIdx fun x => comp v x) = s.length :=
      List.findIdx_eq_length_of_false hall'
    simp [hlen, hub]

/-- C3: for every sequence sorted with respect to the (asymmetric)
comparator and every query, the membership result is true if and only if
the lower bound and the upper bound differ. -/
theorem membership_iff_lb_ne_ub (s : List α) (v : α) (comp : α → α → Bool)
    (_hsort : SortedWith comp s) (hasym : Asymm comp) :
    binary_search s v comp =
      decide (lower_bound s v comp ≠ upper_bound s v comp) := by
  rw [binary_search_eq_bsf, lower_bound_eq_lbf, upper_bound_eq_ubf]
  exact bsf_eq_decide_ne s v comp hasym

/-- Witness for C3: the spec's concrete scenario `S = [1,3,3,3,5,7]`,
`v = 3`. -/
theorem membership_iff_lb_ne_ub_witness :
    SortedWith (less (α := Nat)) [1, 3, 3, 3, 5, 7] ∧
    Asymm (less (α := Nat)) ∧
    binary_search [1, 3, 3, 3, 5, 7] 3 (less (α := Nat)) =
      decide (lower_bound [1, 3, 3, 3, 5, 7] 3 (less (α := Nat)) ≠
              upper_bound [1, 3, 3, 3, 5, 7] 3 (less (α := Nat))) := by
  refine ⟨?_, less_asymm, ?_⟩
  · unfold SortedWith
    decide
  · exact membership_iff_lb_ne_ub [1, 3, 3, 3, 5, 7] 3 (less (α := Nat))
      (by unfold SortedWith; decide) less_asymm

/-- C4: the membership operation takes `i = LowerBound(v)` and returns true
exactly when `i` is in bounds and the comparator reports no strict
inequality in either direction between the query and the element at `i`. -/
theorem membership_via_lower_bound_test (s : List α) (v : α) (comp : α → α → Bool) :
    binary_search s v comp = true ↔
      ∃ h : lower_bound s v comp < s.length,
        comp (s.get ⟨lower_bound s v comp, h⟩) v = false ∧
        comp v (s.get ⟨lower_bound s v comp, h⟩) = false := by
  show detail.bsf s v comp = true ↔
      ∃ h : scalar.lower_bound s v comp < s.length,
        comp (s.get ⟨scalar.lower_bound s v comp, h⟩) v = false ∧
        comp v (s.get ⟨scalar.lower_bound s v comp, h⟩) = false
  simp only [detail.bsf, scalar.lower_bound]
  by_cases h : (s.findIdx fun x => !comp x v) < s.length
  · rw [dif_pos h]
    have hp : comp (s.get ⟨s.findIdx fun x => !comp x v, h⟩) v = false := by
      have hq : (!comp (s.get ⟨s.findIdx fun x => !comp x v, h⟩) v) = true := by
        simpa [List.get_eq_getElem] using List.findIdx_getElem (w := h)
      simpa using hq
    constructor
    · intro hb
      refine ⟨h, hp, ?_⟩
      simpa using hb
    · rintro ⟨h', _, h2⟩
      simpa using h2
  · rw [dif_neg h]
    constructor
    · intro hb
      exact absurd hb (by simp)
    · rintro ⟨h', _, _⟩
      exact absurd h' h

end generic

end Thrust

namespace Thrust

namespace generic

variable {α : Type*} {β : Type*}

/-- `findIdx` skips a leading block on which the predicate is false. -/
theorem findIdx_append_of_all_false {p : α → Bool} {l : List α}
    (h : ∀ x ∈ l, p x = false) (l' : List α) :
    (l ++ l').findIdx p = l.length + l'.findIdx p := by
  rw [List.findIdx_append, List.findIdx_eq_length_of_false h]
  rw [if_neg (Nat.lt_irrefl _), Nat.add_comm]

/-- `findIdx` is zero when the predicate holds everywhere (in particular on
the empty list). -/
theorem findIdx_eq_zero_of_all_true {p : α → Bool} {l : List α}
    (h : ∀ x ∈ l, p x = true) : l.findIdx p = 0 := by
  cases l with
  | nil => rfl
  | cons a t =>
      rw [List.findIdx_cons, h a (List.mem_cons_self a t)]
      rfl

/-- C7: Duplicate-run property: in a sorted sequence made of a prefix of
elements strictly before `v`, a run of `k` elements equivalent to `v`, and
a suffix of elements strictly after `v`, `lower_bound` returns the first
position of the run, `upper_bound` the position just past its last element,
and their difference is `k`. -/
theorem duplicate_run_property (comp : α → α → Bool) (pre run post : List α) (v : α)
    (hasym : Asymm comp)
    (_hsort : SortedWith comp (pre ++ run ++ post))
    (hpre : ∀ x ∈ pre, comp x v = true)
    (hrun : ∀ x ∈ run, comp x v = false ∧ comp v x = false)
    (hpost : ∀ x ∈ post, comp v x = true) :
    lower_bound (pre ++ run ++ post) v comp = pre.length ∧
    upper_bound (pre ++ run ++ post) v comp = pre.length + run.length ∧
    upper_bound (pre ++ run ++ post) v comp -
      lower_bound (pre ++ run ++ post) v comp = run.length := by
  have hlb : lower_bound (pre ++ run ++ post) v comp = pre.length := by
    show ((pre ++ run ++ post).findIdx fun x => !comp x v) = pre.length
    have h1 : ∀ x ∈ pre, (!comp x v) = false := fun x hx => by simp [hpre x hx]
    have h2 : ∀ x ∈ run ++ post, (!comp x v) = true := by
      intro x hx
      rcases List.mem_append.mp hx with hx | hx
      · simp [(hrun x hx).1]
      · simp [hasym _ _ (hpost x hx)]
    rw [List.append_assoc, findIdx_append_of_all_false h1 (run ++ post),
        findIdx_eq_zero_of_all_true h2]
    omega
  have hub : upper_bound (pre ++ run ++ post) v comp = pre.length + run.length := by
    show ((pre ++ run ++ post).findIdx fun x => comp v x) = pre.length + run.length
    have h1 : ∀ x ∈ pre ++ run, comp v x = false := by
      intro x hx
      rcases List.mem_append.mp hx with hx | hx
      · exact hasym _ _ (hpre x hx)
      · exact (hrun x hx).2
    rw [findIdx_append_of_all_false h1 post, findIdx_eq_zero_of_all_true hpost,
        List.length_append]
    omega
  exact ⟨hlb, hub, by omega⟩

/-- Witness for C7: `S = [1] ++ [3,3,3] ++ [5,7]`, `v = 3`, a run of
exactly three equivalent elements. -/
theorem duplicate_run_property_witness :
    Asymm (less (α := Nat)) ∧
    SortedWith (less (α := Nat)) ([1] ++ [3, 3, 3] ++ [5, 7]) ∧
    (∀ x ∈ [1], less x 3 = true) ∧
    (∀ x ∈ [3, 3, 3], less x 3 = false ∧ less 3 x = false) ∧
    (∀ x ∈ [5, 7], less 3 x = true) ∧
    lower_bound ([1] ++ [3, 3, 3] ++ [5, 7]) 3 (less (α := Nat)) = 1 ∧
    upper_bound ([1] ++ [3, 3, 3] ++ [5, 7]) 3 (less (α := Nat)) = 1 + 3 ∧
    upper_bound ([1] ++ [3, 3, 3] ++ [5, 7]) 3 (less (α := Nat)) -
      lower_bound ([1] ++ [3, 3, 3] ++ [5, 7]) 3 (less (α := Nat)) = 3 := by
  refine ⟨less_asymm, by unfold SortedWith; decide, by decide, by decide, by decide, ?_⟩
  have h := duplicate_run_property (less (α := Nat)) [1] [3, 3, 3] [5, 7] 3
    less_asymm (by unfold SortedWith; decide) (by decide) (by decide) (by decide)
  simpa using h

end generic

end Thrust
